import Mathlib

/-!
Verification of the run-length scan of `ParallelSubSearch` (`longest_sub.py`).

The program computes, per sequence, the characters achieving the longest run of
identical consecutive characters (two implementations: a linear scan over a
`defaultdict`, and a vectorized pipeline over change indices), and aggregates
per-sequence results by taking the per-character maximum.

Sequences are `Bio.Seq` values, whose data is guaranteed ASCII, so a sequence is
embedded as a `List Char`; a Python dict from characters to lengths is embedded
as its ordered list of items (`PyDict`), with Python dict equality (`DictEq`)
ignoring item order.  All `ValueError`s raised by the code are embedded as an
error value carrying the message string (apostrophes written as `\x27`).
-/

namespace LongestSub

/-- Association-list lookup by decidable key equality: the value of the first
entry holding the key.  Models Python dict access on the dict's item list
(a real dict has pairwise distinct keys, so the first match is the match). -/
def alookup {α : Type} [DecidableEq α] : List (α × Nat) → α → Option Nat
  | [], _ => none
  | p :: ps, k => if p.1 = k then some p.2 else alookup ps k

/-- A Python dict from characters to run lengths, as its ordered item list. -/
abbrev PyDict := List (Char × Nat)

/-- Python dict equality: item order is irrelevant, only the induced key-value
mapping counts. -/
def DictEq (d₁ d₂ : PyDict) : Prop := ∀ c, alookup d₁ c = alookup d₂ c

/-- Python `str.isalpha`: true iff the string is nonempty and every character is
a letter.  `Bio.Seq` data is ASCII, where a letter is exactly `A`-`Z`, `a`-`z`,
matching `Char.isAlpha`. -/
def pyIsAlpha (s : List Char) : Bool := !s.isEmpty && s.all Char.isAlpha

/-- Python `str.replace(pat, "")` as the scans use it, after the length guard has
passed: the empty pattern removes nothing, and a single-character pattern removes
every occurrence of that character.  Longer patterns never reach this operation
(the guard errors out first), so they are left as the identity here. -/
def pyDel (s : List Char) (pat : String) : List Char :=
  match pat.toList with
  | [c] => s.filter (fun x => x != c)
  | _ => s

/-- The `ValueError`s raised by `longest_sub.py`, carrying the message. -/
inductive PyError : Type where
  | valueError (msg : String)
deriving DecidableEq

/-- Message of the stop-codon/gap length guard (both versions). -/
def configMsg : String := "stop_codon and gap must be either empty or single characters"

/-- Message of version2's alphabetic-content check: the f-string at line 181,
which closes no quote after the gap symbol. -/
def contentMsg2 (stop_codon gap : String) : String :=
  "Sequence must contain only letters, \x27" ++ stop_codon ++ "\x27, or \x27" ++ gap

/-- Message of version1's alphabetic-content check: the f-string at line 78,
closing the quote and ending in a space. -/
def contentMsg1 (stop_codon gap : String) : String :=
  "Sequence must contain only letters, \x27" ++ stop_codon ++ "\x27, or \x27" ++ gap ++ "\x27 "

/-- `np.flatnonzero` on a boolean array: the ascending list of indices holding
`true`. -/
def flatnonzero : List Bool → List Nat
  | [] => []
  | b :: l => if b then 0 :: (flatnonzero l).map (· + 1) else (flatnonzero l).map (· + 1)

/-- `np.diff`: successive differences.  The arrays diffed by the scan are
strictly increasing, so truncated `Nat` subtraction is exact there. -/
def npdiff : List Nat → List Nat
  | a :: b :: l => (b - a) :: npdiff (b :: l)
  | _ => []

/-- `np.max` over an array of naturals.  (`np.max` faults on an empty array; the
scan only applies it to nonempty ones.) -/
def natmax (l : List Nat) : Nat := l.foldr max 0

/-- `different_letter_arr` of version2: `np.r_[True, seq_arr[:-1] != seq_arr[1:]]`,
a boolean array marking the positions where a new run starts. -/
def different_letter_arr (s : List Char) : List Bool :=
  true :: List.zipWith (fun a b => a != b) s s.tail

/-- `seq_start_indices_arr` of version2: indices where a character run starts. -/
def seq_start_indices (s : List Char) : List Nat :=
  flatnonzero (different_letter_arr s)

/-- `seq_lengths_arr` of version2: run lengths, as differences of consecutive
start indices with the sequence length appended as sentinel. -/
def seq_lengths (s : List Char) : List Nat :=
  npdiff (seq_start_indices s ++ [s.length])

/-- The vectorized scan of `longest_contiguous_version2` on the normalized,
validated, nonempty sequence: take the maximal run length, gather the characters
sitting at the start index of each run of that length, deduplicate them
(`set(letters)`), and map each to the maximal length.  Start indices are in
bounds, so the `getD` default is never consulted. -/
def v2core (s : List Char) : PyDict :=
  let m := natmax (seq_lengths s)
  let letters := (((seq_start_indices s).zip (seq_lengths s)).filter
    (fun p => p.2 == m)).map (fun p => s.getD p.1 'a')
  letters.dedup.map (fun c => (c, m))

/-- `longest_contiguous_version2(seq, stop_codon, gap, case_sensitive)`.
The `isinstance(seq, Seq)` guard is a typing concern absorbed by the embedding
(the argument is already a character sequence); the remaining control flow is
literal: empty short-circuit, case normalization, symbol-length guard,
alphabetic-content check on the normalized sequence, vectorized scan. -/
def longest_contiguous_version2 (seq : List Char) (stop_codon gap : String)
    (case_sensitive : Bool) : Except PyError PyDict :=
  if seq.length = 0 then .ok []
  else
    let s := if case_sensitive then seq else seq.map Char.toLower
    if 1 < stop_codon.length ∨ 1 < gap.length then .error (.valueError configMsg)
    else if !(pyIsAlpha (pyDel (pyDel s stop_codon) gap)) then
      .error (.valueError (contentMsg2 stop_codon gap))
    else .ok (v2core s)

/-- `defaultdict(int)` read: the stored value; an absent key is inserted with
value `0` (appended at the end, as Python dicts keep insertion order). -/
def ddRead (d : List (Option Char × Nat)) (k : Option Char) :
    Nat × List (Option Char × Nat) :=
  match alookup d k with
  | some v => (v, d)
  | none => (0, d ++ [(k, 0)])

/-- dict write: overwrite the value of an existing key in place, or append a new
entry. -/
def ddWrite (d : List (Option Char × Nat)) (k : Option Char) (v : Nat) :
    List (Option Char × Nat) :=
  if (alookup d k).isSome then d.map (fun p => if p.1 = k then (p.1, v) else p)
  else d ++ [(k, v)]

/-- Closing out a run in version1: `if current_count > longest_counts[cur]:
longest_counts[cur] = current_count` — a defaultdict read followed by a
conditional overwrite.  Keys are `Option Char` because `current_letter` starts
as `None`. -/
def close (d : List (Option Char × Nat)) (k : Option Char) (n : Nat) :
    List (Option Char × Nat) :=
  let r := ddRead d k
  if n > r.1 then ddWrite r.2 k n else r.2

/-- Loop state of version1: the `longest_counts` dict, `current_letter`, and
`current_count`. -/
structure V1State : Type where
  counts : List (Option Char × Nat)
  cur : Option Char
  cnt : Nat
deriving DecidableEq

/-- One iteration of version1's letter loop. -/
def v1step (st : V1State) (letter : Char) : V1State :=
  if st.cur = some letter then ⟨st.counts, st.cur, st.cnt + 1⟩
  else ⟨close st.counts st.cur st.cnt, some letter, 1⟩

/-- The linear scan of `longest_contiguous_version1` on the normalized,
validated sequence: loop over the letters tracking the current run, close out
the final run, `pop(None)`, and keep the entries attaining the maximal stored
value (skipped when the dict is empty, as in the source). -/
def v1core (s : List Char) : PyDict :=
  let st := s.foldl v1step ⟨[], none, 0⟩
  let d2 := close st.counts st.cur st.cnt
  let d3 := d2.filter (fun p => p.1.isSome)
  if d3.isEmpty then []
  else
    let m := natmax (d3.map Prod.snd)
    (d3.filter (fun p => p.2 == m)).filterMap (fun p => p.1.map (fun c => (c, p.2)))

/-- `longest_contiguous_version1(seq, stop_codon, gap, case_sensitive)`.
Identical validation order to version2, but the sequence is lowercased
unconditionally — `case_sensitive` is accepted and ignored — and the content
message differs (line 78 closes its quote and ends in a space). -/
def longest_contiguous_version1 (seq : List Char) (stop_codon gap : String)
    (case_sensitive : Bool) : Except PyError PyDict :=
  if seq.length = 0 then .ok []
  else
    let s := seq.map Char.toLower
    let _ := case_sensitive
    if 1 < stop_codon.length ∨ 1 < gap.length then .error (.valueError configMsg)
    else if !(pyIsAlpha (pyDel (pyDel s stop_codon) gap)) then
      .error (.valueError (contentMsg1 stop_codon gap))
    else .ok (v1core s)

/-- `longest_contiguous = longest_contiguous_version2` (line 240). -/
def longest_contiguous : List Char → String → String → Bool → Except PyError PyDict :=
  longest_contiguous_version2

/-- The `defaultdict(int)` max-update of `all_longest`:
`d[k] = max(d[k], v)` — reading an absent key yields `0` and appends the key,
the assignment then stores the max in place. -/
def dUpsertMax (d : PyDict) (k : Char) (v : Nat) : PyDict :=
  if (alookup d k).isSome then d.map (fun p => if p.1 = k then (p.1, max p.2 v) else p)
  else d ++ [(k, max 0 v)]

/-- `all_longest(each_longest)`: fold every item of every per-sequence dict into
one dict via the max-update. -/
def all_longest (each_longest : List PyDict) : PyDict :=
  each_longest.foldl (fun acc d => d.foldl (fun a p => dUpsertMax a p.1 p.2) acc) []

/-! ### Reference notions (brute force, independent of both implementations) -/

/-- Reference run-length encoding of a sequence: the list of (character, length)
pairs of its maximal constant blocks, in order. -/
def runs : List Char → List (Char × Nat)
  | [] => []
  | a :: t =>
    match runs t with
    | [] => [(a, 1)]
    | (d, n) :: rs => if a = d then (d, n + 1) :: rs else (a, 1) :: (d, n) :: rs

/-- Brute force: character `c` has a contiguous block of length `n` in `s` iff at
some offset the next `n` characters all equal `c`. -/
def hasRunB (s : List Char) (c : Char) (n : Nat) : Bool :=
  (List.range (s.length + 1)).any (fun i => (s.drop i).take n == List.replicate n c)

/-- Brute-force maximum run length: the greatest `n ≤ |s|` such that some
character of `s` has a contiguous block of length `n` (0 for the empty
sequence). -/
def maxRunLen (s : List Char) : Nat :=
  Nat.findGreatest (fun n => s.any (fun c => hasRunB s c n) = true) s.length

/-- The canonical per-sequence result, as a mapping: exactly the characters
achieving a run of the brute-force maximum length, each mapped to that length. -/
def scanSpec (s : List Char) (c : Char) : Option Nat :=
  if hasRunB s c (maxRunLen s) then some (maxRunLen s) else none

/-! ### Basic lemmas: association lists -/

@[simp] theorem alookup_nil {α : Type} [DecidableEq α] (k : α) :
    alookup ([] : List (α × Nat)) k = none := rfl

@[simp] theorem alookup_cons {α : Type} [DecidableEq α] (p : α × Nat)
    (ps : List (α × Nat)) (k : α) :
    alookup (p :: ps) k = if p.1 = k then some p.2 else alookup ps k := rfl

theorem alookup_append {α : Type} [DecidableEq α] (d₁ d₂ : List (α × Nat)) (k : α) :
    alookup (d₁ ++ d₂) k =
      match alookup d₁ k with
      | some v => some v
      | none => alookup d₂ k := by
  induction d₁ with
  | nil => simp
  | cons p ps ih =>
    by_cases h : p.1 = k <;> simp [h, ih]

theorem mem_of_alookup_eq_some {α : Type} [DecidableEq α] {d : List (α × Nat)}
    {k : α} {v : Nat} (h : alookup d k = some v) : (k, v) ∈ d := by
  induction d with
  | nil => simp at h
  | cons p ps ih =>
    rcases p with ⟨k', v'⟩
    by_cases hk : k' = k
    · subst hk
      simp at h
      simp [h]
    · simp [hk] at h
      simp [ih h]

theorem alookup_eq_none_iff {α : Type} [DecidableEq α] {d : List (α × Nat)} {k : α} :
    alookup d k = none ↔ k ∉ d.map Prod.fst := by
  induction d with
  | nil => simp
  | cons p ps ih =>
    by_cases hk : p.1 = k
    · simp [hk]
    · simp [hk, ih, Ne.symm hk]

theorem alookup_eq_some_of_mem_nodup {α : Type} [DecidableEq α]
    {d : List (α × Nat)} {p : α × Nat} (hnd : (d.map Prod.fst).Nodup)
    (hp : p ∈ d) : alookup d p.1 = some p.2 := by
  induction d with
  | nil => simp at hp
  | cons q qs ih =>
    simp only [List.map_cons, List.nodup_cons] at hnd
    rcases List.mem_cons.mp hp with h | h
    · subst h
      simp
    · have hne : q.1 ≠ p.1 := by
        intro he
        exact hnd.1 (he ▸ List.mem_map_of_mem Prod.fst h)
      simp [hne, ih hnd.2 h]

/-! ### Basic lemmas: the reference run-length encoding -/

@[simp] theorem runs_nil : runs [] = [] := rfl

theorem runs_cons (a : Char) (t : List Char) :
    runs (a :: t) =
      match runs t with
      | [] => [(a, 1)]
      | (d, n) :: rs => if a = d then (d, n + 1) :: rs else (a, 1) :: (d, n) :: rs := rfl

theorem runs_cons_of_nil {a : Char} {t : List Char} (h : runs t = []) :
    runs (a :: t) = [(a, 1)] := by
  rw [runs_cons, h]

theorem runs_cons_of_eq {a d : Char} {t : List Char} {n : Nat}
    {rs : List (Char × Nat)} (h : runs t = (d, n) :: rs) (had : a = d) :
    runs (a :: t) = (d, n + 1) :: rs := by
  rw [runs_cons, h]
  simp [had]

theorem runs_cons_of_ne {a d : Char} {t : List Char} {n : Nat}
    {rs : List (Char × Nat)} (h : runs t = (d, n) :: rs) (had : a ≠ d) :
    runs (a :: t) = (a, 1) :: (d, n) :: rs := by
  rw [runs_cons, h]
  simp [had]

theorem runs_eq_nil_iff {s : List Char} : runs s = [] ↔ s = [] := by
  cases s with
  | nil => simp
  | cons a t =>
    rw [runs_cons]
    cases h : runs t with
    | nil => simp
    | cons q rs =>
      rcases q with ⟨d, n⟩
      by_cases had : a = d <;> simp [had]

/-- The head of `runs (a :: t)` is a run of `a` of positive length. -/
theorem runs_cons_head (a : Char) (t : List Char) :
    ∃ k rs, runs (a :: t) = (a, k) :: rs ∧ 1 ≤ k := by
  rw [runs_cons]
  cases h : runs t with
  | nil => exact ⟨1, [], rfl, le_refl 1⟩
  | cons q rs =>
    rcases q with ⟨d, n⟩
    by_cases had : a = d
    · subst had
      exact ⟨n + 1, rs, by simp, by omega⟩
    · exact ⟨1, (d, n) :: rs, by simp [had], le_refl 1⟩

theorem runs_pos {s : List Char} : ∀ p ∈ runs s, 1 ≤ p.2 := by
  induction s with
  | nil => simp
  | cons a t ih =>
    rw [runs_cons]
    cases h : runs t with
    | nil => simp
    | cons q rs =>
      rcases q with ⟨d, n⟩
      have hq : 1 ≤ n := by
        have := ih (d, n) (by rw [h]; exact List.mem_cons_self _ _)
        simpa using this
      have hrs : ∀ p ∈ rs, 1 ≤ p.2 := fun p hp =>
        ih p (by rw [h]; exact List.mem_cons_of_mem _ hp)
      by_cases had : a = d
      · simp only [had, if_pos rfl]
        intro p hp
        rcases List.mem_cons.mp hp with h' | h'
        · subst h'; simp
        · exact hrs p h'
      · simp only [if_neg had]
        intro p hp
        rcases List.mem_cons.mp hp with h' | h'
        · subst h'; simp
        · rcases List.mem_cons.mp h' with h'' | h''
          · subst h''; exact hq
          · exact hrs p h''

/-- Flattening the run-length encoding recovers the sequence. -/
theorem runs_flat (s : List Char) :
    (runs s).flatMap (fun p => List.replicate p.2 p.1) = s := by
  induction s with
  | nil => simp
  | cons a t ih =>
    rw [runs_cons]
    cases h : runs t with
    | nil =>
      have ht : t = [] := runs_eq_nil_iff.mp h
      simp [ht]
    | cons q rs =>
      rcases q with ⟨d, n⟩
      rw [h] at ih
      by_cases had : a = d
      · subst had
        simpa [List.replicate_succ, List.flatMap_cons] using
          congrArg (List.cons a) (by simpa [List.flatMap_cons] using ih)
      · simp [had, List.flatMap_cons, ih]

/-- Consecutive runs carry distinct characters. -/
theorem runs_chain (s : List Char) :
    (runs s).Chain' (fun p q => p.1 ≠ q.1) := by
  induction s with
  | nil => simp
  | cons a t ih =>
    cases h : runs t with
    | nil => simp [runs_cons_of_nil h]
    | cons q rs =>
      rcases q with ⟨d, n⟩
      rw [h] at ih
      by_cases had : a = d
      · rw [runs_cons_of_eq h had]
        cases rs with
        | nil => simp
        | cons q' rs' =>
          rw [List.chain'_cons] at ih ⊢
          exact ⟨ih.1, ih.2⟩
      · rw [runs_cons_of_ne h had]
        rw [List.chain'_cons]
        exact ⟨had, ih⟩

theorem mem_runs_char {s : List Char} {c : Char} :
    c ∈ (runs s).map Prod.fst ↔ c ∈ s := by
  constructor
  · intro h
    rcases List.mem_map.mp h with ⟨p, hp, hc⟩
    have : c ∈ (runs s).flatMap (fun p => List.replicate p.2 p.1) := by
      refine List.mem_flatMap.mpr ⟨p, hp, ?_⟩
      have := runs_pos p hp
      subst hc
      exact List.mem_replicate.mpr ⟨by omega, rfl⟩
    rwa [runs_flat] at this
  · intro h
    conv at h => rw [← runs_flat s]
    rcases List.mem_flatMap.mp h with ⟨p, hp, hc⟩
    rcases List.mem_replicate.mp hc with ⟨-, rfl⟩
    exact List.mem_map_of_mem Prod.fst hp

/-! ### Basic lemmas: natmax -/

@[simp] theorem natmax_nil : natmax [] = 0 := rfl

@[simp] theorem natmax_cons (a : Nat) (l : List Nat) :
    natmax (a :: l) = max a (natmax l) := rfl

theorem le_natmax_of_mem {a : Nat} {l : List Nat} (h : a ∈ l) : a ≤ natmax l := by
  induction l with
  | nil => simp at h
  | cons b l ih =>
    rcases List.mem_cons.mp h with h' | h'
    · subst h'; simp
    · have := ih h'
      simp only [natmax_cons]
      omega

theorem natmax_le {l : List Nat} {b : Nat} (h : ∀ a ∈ l, a ≤ b) : natmax l ≤ b := by
  induction l with
  | nil => simp
  | cons a l ih =>
    simp only [natmax_cons]
    have h₁ := h a (List.mem_cons_self _ _)
    have h₂ := ih fun x hx => h x (List.mem_cons_of_mem _ hx)
    omega

theorem natmax_mem {l : List Nat} (h : l ≠ []) : natmax l ∈ l ∨ natmax l = 0 := by
  induction l with
  | nil => simp at h
  | cons a l ih =>
    cases l with
    | nil => simp
    | cons b l' =>
      rcases ih (by simp) with h' | h'
      · rcases Nat.le_total a (natmax (b :: l')) with hle | hle
        · have he : natmax (a :: b :: l') = natmax (b :: l') := by
            rw [natmax_cons, Nat.max_eq_right hle]
          rw [he]
          exact Or.inl (List.mem_cons_of_mem _ h')
        · have he : natmax (a :: b :: l') = a := by
            rw [natmax_cons, Nat.max_eq_left hle]
          rw [he]
          exact Or.inl (List.mem_cons_self _ _)
      · have he : natmax (a :: b :: l') = a := by
          rw [natmax_cons, h', Nat.max_zero]
        rw [he]
        exact Or.inl (List.mem_cons_self _ _)

/-! ### The brute-force notions against the run-length encoding -/

/-- Two cons cells of pairs are equal iff all components agree. -/
theorem pair_cons_eq_cons {x u : Char} {y v : Nat} {l r : List (Char × Nat)} :
    ((x, y) :: l = (u, v) :: r) ↔ (x = u ∧ y = v ∧ l = r) := by
  constructor
  · intro h
    injection h with h1 h2
    injection h1 with h3 h4
    exact ⟨h3, h4, h2⟩
  · rintro ⟨rfl, rfl, rfl⟩
    rfl

/-- A prefix of `s` that is a replicate of `c` is bounded by the head run. -/
theorem take_eq_replicate_iff (s : List Char) (c : Char) (n : Nat) :
    s.take n = List.replicate n c ↔
      (n = 0 ∨ ∃ k rs, runs s = (c, k) :: rs ∧ n ≤ k) := by
  induction s generalizing n with
  | nil =>
    cases n with
    | zero => simp
    | succ m => simp [List.replicate_succ]
  | cons a t ih =>
    cases n with
    | zero => simp
    | succ m =>
      rw [List.take_succ_cons, List.replicate_succ, List.cons_eq_cons, ih]
      cases h : runs t with
      | nil =>
        rw [runs_cons_of_nil h]
        constructor
        · rintro ⟨rfl, (rfl | ⟨k, rs, hk, -⟩)⟩
          · exact Or.inr ⟨1, [], rfl, Nat.le_refl 1⟩
          · exact absurd hk (by simp)
        · rintro (h' | ⟨k, rs, hk, hle⟩)
          · exact absurd h' (Nat.succ_ne_zero m)
          · obtain ⟨rfl, rfl, rfl⟩ := pair_cons_eq_cons.mp hk
            exact ⟨rfl, Or.inl (by omega)⟩
      | cons q rs0 =>
        rcases q with ⟨d, k'⟩
        by_cases had : a = d
        · subst had
          rw [runs_cons_of_eq h rfl]
          constructor
          · rintro ⟨rfl, (rfl | ⟨k, rs', hk, hle⟩)⟩
            · exact Or.inr ⟨k' + 1, rs0, rfl, by omega⟩
            · obtain ⟨-, rfl, rfl⟩ := pair_cons_eq_cons.mp hk
              exact Or.inr ⟨k' + 1, rs0, rfl, by omega⟩
          · rintro (h' | ⟨k, rs', hk, hle⟩)
            · exact absurd h' (Nat.succ_ne_zero m)
            · obtain ⟨rfl, rfl, rfl⟩ := pair_cons_eq_cons.mp hk
              exact ⟨rfl, Or.inr ⟨k', rs0, rfl, by omega⟩⟩
        · rw [runs_cons_of_ne h had]
          constructor
          · rintro ⟨rfl, (rfl | ⟨k, rs', hk, hle⟩)⟩
            · exact Or.inr ⟨1, (d, k') :: rs0, rfl, Nat.le_refl 1⟩
            · obtain ⟨h1, -, -⟩ := pair_cons_eq_cons.mp hk
              exact absurd h1.symm had
          · rintro (h' | ⟨k, rs', hk, hle⟩)
            · exact absurd h' (Nat.succ_ne_zero m)
            · obtain ⟨rfl, rfl, rfl⟩ := pair_cons_eq_cons.mp hk
              exact ⟨rfl, Or.inl (by omega)⟩

theorem hasRunB_iff (s : List Char) (c : Char) (n : Nat) :
    hasRunB s c n = true ↔ ∃ i ≤ s.length, (s.drop i).take n = List.replicate n c := by
  simp [hasRunB, List.any_eq_true, List.mem_range, Nat.lt_succ_iff]

theorem hasRunB_nil_iff (c : Char) (n : Nat) : hasRunB [] c n = true ↔ n = 0 := by
  rw [hasRunB_iff]
  constructor
  · rintro ⟨i, -, h⟩
    have := congrArg List.length h
    simp at this
    omega
  · rintro rfl
    exact ⟨0, by simp, by simp⟩

theorem hasRunB_cons_iff (a : Char) (t : List Char) (c : Char) (n : Nat) :
    hasRunB (a :: t) c n = true ↔
      ((a :: t).take n = List.replicate n c ∨ hasRunB t c n = true) := by
  rw [hasRunB_iff, hasRunB_iff]
  constructor
  · rintro ⟨i, hi, h⟩
    cases i with
    | zero => exact Or.inl (by simpa using h)
    | succ j =>
      exact Or.inr ⟨j, by simpa using hi, by simpa using h⟩
  · rintro (h | ⟨j, hj, h⟩)
    · exact ⟨0, by simp, by simpa using h⟩
    · exact ⟨j + 1, by simpa using hj, by simpa using h⟩

/-- The brute-force run test, characterized by the run-length encoding. -/
theorem hasRunB_iff_runs (s : List Char) (c : Char) (n : Nat) :
    hasRunB s c n = true ↔ (n = 0 ∨ ∃ p ∈ runs s, p.1 = c ∧ n ≤ p.2) := by
  induction s with
  | nil => simp [hasRunB_nil_iff]
  | cons a t ih =>
    rw [hasRunB_cons_iff, ih, take_eq_replicate_iff]
    cases h : runs t with
    | nil =>
      rw [runs_cons_of_nil h]
      constructor
      · rintro ((h' | ⟨k, rs, hk, hle⟩) | (h' | ⟨p, hp, hpc, hle⟩))
        · exact Or.inl h'
        · obtain ⟨rfl, rfl, rfl⟩ := pair_cons_eq_cons.mp hk
          exact Or.inr ⟨(a, 1), List.mem_cons_self _ _, rfl, hle⟩
        · exact Or.inl h'
        · simp at hp
      · rintro (h' | ⟨p, hp, hpc, hle⟩)
        · exact Or.inl (Or.inl h')
        · obtain rfl := List.mem_singleton.mp hp
          refine Or.inl (Or.inr ⟨1, [], ?_, hle⟩)
          rw [show a = c from hpc]
    | cons q rs0 =>
      rcases q with ⟨d, k'⟩
      by_cases had : a = d
      · subst had
        rw [runs_cons_of_eq h rfl]
        constructor
        · rintro ((h' | ⟨k, rs', hk, hle⟩) | (h' | ⟨p, hp, hpc, hle⟩))
          · exact Or.inl h'
          · obtain ⟨rfl, rfl, rfl⟩ := pair_cons_eq_cons.mp hk
            exact Or.inr ⟨(a, k' + 1), List.mem_cons_self _ _, rfl, hle⟩
          · exact Or.inl h'
          · rcases List.mem_cons.mp hp with h2 | h2
            · subst h2
              exact Or.inr ⟨(a, k' + 1), List.mem_cons_self _ _, hpc, by omega⟩
            · exact Or.inr ⟨p, List.mem_cons_of_mem _ h2, hpc, hle⟩
        · rintro (h' | ⟨p, hp, hpc, hle⟩)
          · exact Or.inl (Or.inl h')
          · rcases List.mem_cons.mp hp with h2 | h2
            · subst h2
              refine Or.inl (Or.inr ⟨k' + 1, rs0, ?_, hle⟩)
              rw [show a = c from hpc]
            · exact Or.inr (Or.inr ⟨p, List.mem_cons_of_mem _ h2, hpc, hle⟩)
      · rw [runs_cons_of_ne h had]
        constructor
        · rintro ((h' | ⟨k, rs', hk, hle⟩) | (h' | ⟨p, hp, hpc, hle⟩))
          · exact Or.inl h'
          · obtain ⟨rfl, rfl, rfl⟩ := pair_cons_eq_cons.mp hk
            exact Or.inr ⟨(a, 1), List.mem_cons_self _ _, rfl, hle⟩
          · exact Or.inl h'
          · exact Or.inr ⟨p, List.mem_cons_of_mem _ hp, hpc, hle⟩
        · rintro (h' | ⟨p, hp, hpc, hle⟩)
          · exact Or.inl (Or.inl h')
          · rcases List.mem_cons.mp hp with h2 | h2
            · subst h2
              refine Or.inl (Or.inr ⟨1, (d, k') :: rs0, ?_, hle⟩)
              rw [show a = c from hpc]
            · exact Or.inr (Or.inr ⟨p, h2, hpc, hle⟩)

theorem run_len_le_length {s : List Char} : ∀ p ∈ runs s, p.2 ≤ s.length := by
  intro p hp
  have hflat := congrArg List.length (runs_flat s)
  rw [List.length_flatMap] at hflat
  have hmem : p.2 ∈ List.map (List.length ∘ fun p => List.replicate p.2 p.1) (runs s) := by
    refine List.mem_map.mpr ⟨p, hp, ?_⟩
    simp
  calc p.2 ≤ (List.map (List.length ∘ fun p => List.replicate p.2 p.1) (runs s)).sum :=
        List.single_le_sum (fun x _ => Nat.zero_le x) _ hmem
    _ = s.length := hflat

/-- The brute-force maximum run length is the maximum over the run-length
encoding. -/
theorem maxRunLen_eq_natmax_runs (s : List Char) :
    maxRunLen s = natmax ((runs s).map Prod.snd) := by
  cases s with
  | nil => simp [maxRunLen]
  | cons a t =>
    apply Nat.findGreatest_eq_iff.mpr
    refine ⟨?_, ?_, ?_⟩
    · exact natmax_le fun x hx => by
        rcases List.mem_map.mp hx with ⟨p, hp, rfl⟩
        exact run_len_le_length p hp
    · intro hne
      rcases natmax_mem (l := (runs (a :: t)).map Prod.snd) (by
        rcases runs_cons_head a t with ⟨k, rs, hk, -⟩
        simp [hk]) with hmem | hzero
      · rcases List.mem_map.mp hmem with ⟨p, hp, hpx⟩
        refine List.any_eq_true.mpr ⟨p.1, ?_, ?_⟩
        · exact mem_runs_char.mp (List.mem_map_of_mem Prod.fst hp)
        · exact (hasRunB_iff_runs ..).mpr (Or.inr ⟨p, hp, rfl, by omega⟩)
      · exact absurd hzero hne
    · intro n hgt hle hP
      rcases List.any_eq_true.mp hP with ⟨c, -, hc⟩
      rcases (hasRunB_iff_runs ..).mp hc with rfl | ⟨p, hp, -, hnp⟩
      · omega
      · have : p.2 ≤ natmax ((runs (a :: t)).map Prod.snd) :=
          le_natmax_of_mem (List.mem_map_of_mem Prod.snd hp)
        omega

theorem maxRunLen_pos {s : List Char} (h : s ≠ []) : 1 ≤ maxRunLen s := by
  cases s with
  | nil => exact absurd rfl h
  | cons a t =>
    rw [maxRunLen_eq_natmax_runs]
    rcases runs_cons_head a t with ⟨k, rs, hk, hk1⟩
    have : k ≤ natmax ((runs (a :: t)).map Prod.snd) :=
      le_natmax_of_mem (by rw [hk]; exact List.mem_cons_self _ _)
    omega

/-- A character attains the global maximum run length iff the encoding holds a
run of it of exactly that length. -/
theorem hasRunB_maxRunLen_iff {s : List Char} (h : s ≠ []) (c : Char) :
    hasRunB s c (maxRunLen s) = true ↔
      ∃ p ∈ runs s, p.1 = c ∧ p.2 = maxRunLen s := by
  rw [hasRunB_iff_runs]
  have hpos := maxRunLen_pos h
  constructor
  · rintro (h0 | ⟨p, hp, hpc, hle⟩)
    · omega
    · have hub : p.2 ≤ maxRunLen s := by
        rw [maxRunLen_eq_natmax_runs]
        exact le_natmax_of_mem (List.mem_map_of_mem Prod.snd hp)
      exact ⟨p, hp, hpc, by omega⟩
  · rintro ⟨p, hp, hpc, hpe⟩
    exact Or.inr ⟨p, hp, hpc, by omega⟩

/-! ### The vectorized pipeline against the run-length encoding -/

@[simp] theorem flatnonzero_nil : flatnonzero [] = [] := rfl

theorem flatnonzero_cons_true (l : List Bool) :
    flatnonzero (true :: l) = 0 :: (flatnonzero l).map (· + 1) := rfl

theorem flatnonzero_cons_false (l : List Bool) :
    flatnonzero (false :: l) = (flatnonzero l).map (· + 1) := rfl

@[simp] theorem npdiff_nil : npdiff [] = [] := rfl

@[simp] theorem npdiff_single (a : Nat) : npdiff [a] = [] := rfl

theorem npdiff_cons_cons (a b : Nat) (l : List Nat) :
    npdiff (a :: b :: l) = (b - a) :: npdiff (b :: l) := rfl

/-- `np.diff` is invariant under a constant shift. -/
theorem npdiff_map_add (l : List Nat) (k : Nat) :
    npdiff (l.map (· + k)) = npdiff l := by
  induction l with
  | nil => rfl
  | cons a l ih =>
    cases l with
    | nil => rfl
    | cons b t =>
      rw [List.map_cons, List.map_cons, npdiff_cons_cons, npdiff_cons_cons]
      have hr : npdiff ((b :: t).map (· + k)) = npdiff (b :: t) := ih
      rw [List.map_cons] at hr
      rw [hr]
      congr 1
      omega

theorem npdiff_length (l : List Nat) : (npdiff l).length = l.length - 1 := by
  induction l with
  | nil => rfl
  | cons a l ih =>
    cases l with
    | nil => rfl
    | cons b t =>
      rw [npdiff_cons_cons]
      simp only [List.length_cons] at ih ⊢
      omega

/-- Shifting all indices by one moves the `getD` across a cons cell. -/
theorem zip_map_succ_getD (I L : List Nat) (a : Char) (t : List Char) :
    ((I.map (· + 1)).zip L).map (fun p => ((a :: t).getD p.1 'a', p.2)) =
      (I.zip L).map (fun p => (t.getD p.1 'a', p.2)) := by
  induction I generalizing L with
  | nil => rfl
  | cons i I' ih =>
    cases L with
    | nil => rfl
    | cons x L' =>
      rw [List.map_cons, List.zip_cons_cons, List.zip_cons_cons, List.map_cons,
        List.map_cons, List.getD_cons_succ]
      rw [ih]

theorem npdiff_zero_cons (u : List Nat) (hu : u ≠ []) :
    npdiff (0 :: u) = u.headD 0 :: npdiff u := by
  cases u with
  | nil => exact absurd rfl hu
  | cons w u' =>
    rw [npdiff_cons_cons]
    simp

theorem npdiff_zero_cons_shift (u : List Nat) (hu : u ≠ []) :
    npdiff (0 :: u.map (· + 1)) = (u.headD 0 + 1) :: npdiff u := by
  cases u with
  | nil => exact absurd rfl hu
  | cons w u' =>
    rw [List.map_cons, npdiff_cons_cons]
    have h2 : npdiff ((w :: u').map (· + 1)) = npdiff (w :: u') := npdiff_map_add _ 1
    rw [List.map_cons] at h2
    rw [h2]
    simp

/-- The vectorized pipeline of version2 recovers exactly the run-length
encoding: zipping run start indices with run lengths and reading the characters
at the start indices yields `runs`. -/
theorem pipeline_eq_runs (s : List Char) (hs : s ≠ []) :
    ((seq_start_indices s).zip (seq_lengths s)).map
      (fun p => (s.getD p.1 'a', p.2)) = runs s := by
  induction s with
  | nil => exact absurd rfl hs
  | cons a t ih =>
    cases t with
    | nil => rfl
    | cons b t' =>
      have IH := ih (by simp)
      obtain ⟨k0, rs0, hk0, -⟩ := runs_cons_head b t'
      have hchg : different_letter_arr (a :: b :: t') =
          true :: (a != b) :: List.zipWith (fun x y => x != y) (b :: t') t' := rfl
      have hchgt : different_letter_arr (b :: t') =
          true :: List.zipWith (fun x y => x != y) (b :: t') t' := rfl
      have hsit : seq_start_indices (b :: t') =
          0 :: (flatnonzero (List.zipWith (fun x y => x != y) (b :: t') t')).map (· + 1) := by
        rw [seq_start_indices, hchgt, flatnonzero_cons_true]
      set G : List Nat :=
        (flatnonzero (List.zipWith (fun x y => x != y) (b :: t') t')).map (· + 1) with hG
      by_cases hab : a = b
      · have hbne : (a != b) = false := by simp [hab]
        have hsi : seq_start_indices (a :: b :: t') = 0 :: G.map (· + 1) := by
          rw [seq_start_indices, hchg, hbne, flatnonzero_cons_true, flatnonzero_cons_false, hG]
        have hune : G ++ [(b :: t').length] ≠ [] := by simp
        have hslt : seq_lengths (b :: t') =
            (G ++ [(b :: t').length]).headD 0 :: npdiff (G ++ [(b :: t').length]) := by
          rw [seq_lengths, hsit, List.cons_append, npdiff_zero_cons _ hune]
        have hsl : seq_lengths (a :: b :: t') =
            ((G ++ [(b :: t').length]).headD 0 + 1) :: npdiff (G ++ [(b :: t').length]) := by
          rw [seq_lengths, hsi, List.cons_append]
          have hm : G.map (· + 1) ++ [(a :: b :: t').length] =
              (G ++ [(b :: t').length]).map (· + 1) := by
            simp
          rw [hm, npdiff_zero_cons_shift _ hune]
        rw [hsit, hslt] at IH
        rw [hsi, hsl]
        simp only [List.zip_cons_cons, List.map_cons, List.getD_cons_zero] at IH ⊢
        rw [zip_map_succ_getD]
        rw [runs_cons_of_eq IH.symm hab, hab]
      · have hbne : (a != b) = true := by simp [hab]
        have hsi : seq_start_indices (a :: b :: t') = 0 :: (0 :: G).map (· + 1) := by
          rw [seq_start_indices, hchg, hbne, flatnonzero_cons_true, flatnonzero_cons_true, hG]
        have hsl : seq_lengths (a :: b :: t') = 1 :: seq_lengths (b :: t') := by
          rw [seq_lengths, hsi, List.cons_append]
          have hm : (0 :: G).map (· + 1) ++ [(a :: b :: t').length] =
              ((0 :: G) ++ [(b :: t').length]).map (· + 1) := by
            simp
          rw [hm, npdiff_zero_cons_shift _ (by simp), seq_lengths, hsit]
          simp [List.cons_append]
        rw [hsit] at IH
        rw [hsi, hsl]
        rw [List.zip_cons_cons, List.map_cons, zip_map_succ_getD, IH]
        simp only [List.getD_cons_zero]
        rw [runs_cons_of_ne hk0 hab, ← hk0]

theorem seq_lengths_length (s : List Char) :
    (seq_lengths s).length = (seq_start_indices s).length := by
  rw [seq_lengths, npdiff_length]
  simp

/-- For a nonempty sequence, `seq_lengths` computes exactly the run lengths. -/
theorem seq_lengths_eq_runs {s : List Char} (hs : s ≠ []) :
    seq_lengths s = (runs s).map Prod.snd := by
  have h := congrArg (List.map Prod.snd) (pipeline_eq_runs s hs)
  rw [List.map_map] at h
  have h2 : (Prod.snd ∘ fun p : Nat × Nat => (s.getD p.1 'a', p.2)) = Prod.snd := rfl
  rw [h2] at h
  rw [List.map_snd_zip _ _ (le_of_eq (seq_lengths_length s))] at h
  exact h

theorem natmax_seq_lengths {s : List Char} (hs : s ≠ []) :
    natmax (seq_lengths s) = maxRunLen s := by
  rw [seq_lengths_eq_runs hs, ← maxRunLen_eq_natmax_runs]

theorem filter_snd_map_fst (l : List (Nat × Nat)) (f : Nat → Char) (m : Nat) :
    (l.filter (fun p => p.2 == m)).map (fun p => f p.1) =
      ((l.map (fun p => (f p.1, p.2))).filter (fun p => p.2 == m)).map Prod.fst := by
  induction l with
  | nil => rfl
  | cons p l ih =>
    by_cases h : p.2 = m
    · simp [h, ih]
    · simp [h, ih]

theorem alookup_map_const (L : List Char) (m : Nat) (c : Char) :
    alookup (L.map (fun x => (x, m))) c = if c ∈ L then some m else none := by
  induction L with
  | nil => simp
  | cons x L ih =>
    by_cases h : x = c
    · simp [h]
    · simp only [List.map_cons, alookup_cons, if_neg h, ih]
      have : (c ∈ x :: L) ↔ c ∈ L := by
        simp [List.mem_cons, Ne.symm h]
      rw [if_congr this rfl rfl]

/-- Core correctness of the vectorized scan: on a nonempty sequence its result,
read as a mapping, is exactly the canonical per-sequence result. -/
theorem v2core_lookup {s : List Char} (hs : s ≠ []) (c : Char) :
    alookup (v2core s) c = scanSpec s c := by
  have hm : natmax (seq_lengths s) = maxRunLen s := natmax_seq_lengths hs
  have hletters :
      (((seq_start_indices s).zip (seq_lengths s)).filter
        (fun p => p.2 == natmax (seq_lengths s))).map (fun p => s.getD p.1 'a') =
      ((runs s).filter (fun p => p.2 == natmax (seq_lengths s))).map Prod.fst := by
    rw [filter_snd_map_fst ((seq_start_indices s).zip (seq_lengths s))
      (fun i => s.getD i 'a') (natmax (seq_lengths s)), pipeline_eq_runs s hs]
  have hcond : (c ∈ ((runs s).filter (fun p => p.2 == maxRunLen s)).map Prod.fst) ↔
      hasRunB s c (maxRunLen s) = true := by
    rw [hasRunB_maxRunLen_iff hs]
    simp only [List.mem_map, List.mem_filter, beq_iff_eq]
    constructor
    · rintro ⟨p, ⟨hp, he⟩, rfl⟩
      exact ⟨p, hp, rfl, he⟩
    · rintro ⟨p, hp, rfl, he⟩
      exact ⟨p, ⟨hp, he⟩, rfl⟩
  simp only [v2core]
  rw [alookup_map_const, hletters, hm, scanSpec]
  by_cases hc : hasRunB s c (maxRunLen s) = true
  · rw [if_pos (List.mem_dedup.mpr (hcond.mpr hc)), if_pos hc]
  · rw [if_neg (fun h => hc (hcond.mp (List.mem_dedup.mp h))), if_neg hc]

/-! ### Folding maxima into optional accumulators (defaultdict semantics) -/

/-- Folding a list of values into an optional stored value, where an absent
value reads as `0` (the `defaultdict(int)` default) and each step stores the
max.  This is the common shape of version1's close-outs and of `all_longest`'s
updates, per key. -/
def mergeVals (o : Option Nat) (vs : List Nat) : Option Nat :=
  vs.foldl (fun o n => some (max (o.getD 0) n)) o

@[simp] theorem mergeVals_nil (o : Option Nat) : mergeVals o [] = o := rfl

theorem mergeVals_cons (o : Option Nat) (v : Nat) (vs : List Nat) :
    mergeVals o (v :: vs) = mergeVals (some (max (o.getD 0) v)) vs := rfl

theorem mergeVals_some (a : Nat) (vs : List Nat) :
    mergeVals (some a) vs = some (vs.foldl max a) := by
  induction vs generalizing a with
  | nil => rfl
  | cons v vs ih =>
    rw [mergeVals_cons, List.foldl_cons, ih]
    rfl

theorem foldl_max_eq_natmax (a : Nat) (l : List Nat) : l.foldl max a = max a (natmax l) := by
  induction l generalizing a with
  | nil => simp
  | cons b l ih =>
    rw [List.foldl_cons, ih, natmax_cons]
    omega

theorem mergeVals_none_eq (vs : List Nat) :
    mergeVals none vs = if vs.isEmpty then none else some (natmax vs) := by
  cases vs with
  | nil => rfl
  | cons v vs =>
    rw [mergeVals_cons, mergeVals_some, foldl_max_eq_natmax]
    simp only [Option.getD_none, List.isEmpty_cons, natmax_cons]
    rw [if_neg (by simp)]
    congr 1
    omega

/-! ### Lookup behaviour of version1's dictionary operations -/

theorem alookup_map_update {α : Type} [DecidableEq α] (d : List (α × Nat))
    (k : α) (n : Nat) (q : α) :
    alookup (d.map (fun p => if p.1 = k then (p.1, n) else p)) q =
      if q = k then (alookup d k).map (fun _ => n) else alookup d q := by
  induction d with
  | nil =>
    simp only [List.map_nil, alookup_nil, Option.map_none]
    split <;> rfl
  | cons p d ih =>
    by_cases hpk : p.1 = k
    · by_cases hqk : q = k
      · subst hqk
        simp [hpk, ih]
      · have h1 : ¬ p.1 = q := by rw [hpk]; exact fun h => hqk h.symm
        have h2 : ¬ k = q := fun h => hqk h.symm
        simp [hpk, h1, hqk, h2, ih]
    · by_cases hpq : p.1 = q
      · have hqk : ¬ q = k := fun h => hpk (h ▸ hpq)
        simp [hpk, hpq, hqk]
      · simp [hpk, hpq, ih]

theorem alookup_append_single {α : Type} [DecidableEq α] (d : List (α × Nat))
    (k : α) (v : Nat) (q : α) :
    alookup (d ++ [(k, v)]) q =
      match alookup d q with
      | some w => some w
      | none => if k = q then some v else none := by
  rw [alookup_append]
  cases alookup d q <;> simp

/-- The net effect of one close-out on lookups: the closed key stores the max of
its previous value (0 when absent) and the closing count; other keys are
untouched. -/
theorem alookup_close (d : List (Option Char × Nat)) (k : Option Char) (n : Nat)
    (q : Option Char) :
    alookup (close d k n) q =
      if q = k then some (max ((alookup d k).getD 0) n) else alookup d q := by
  unfold close ddRead
  cases hk : alookup d k with
  | some v =>
    simp only [Option.getD_some]
    by_cases hn : n > v
    · rw [if_pos hn]
      unfold ddWrite
      rw [if_pos (by rw [hk]; rfl), alookup_map_update, hk]
      by_cases hq : q = k
      · rw [if_pos hq, if_pos hq]
        show some n = some (max v n)
        congr 1
        omega
      · rw [if_neg hq, if_neg hq]
    · rw [if_neg hn]
      by_cases hq : q = k
      · rw [if_pos hq, hq, hk]
        congr 1
        omega
      · rw [if_neg hq]
  | none =>
    simp only [Option.getD_none]
    by_cases hn : n > 0
    · rw [if_pos hn]
      unfold ddWrite
      have hk2 : alookup (d ++ [(k, 0)]) k = some 0 := by
        rw [alookup_append_single, hk]
        simp
      rw [if_pos (by rw [hk2]; rfl), alookup_map_update, hk2]
      by_cases hq : q = k
      · rw [if_pos hq, if_pos hq]
        show some n = some (max 0 n)
        congr 1
        omega
      · rw [if_neg hq, if_neg hq, alookup_append_single]
        cases hdq : alookup d q with
        | some w => rfl
        | none =>
          rw [if_neg (fun h => hq (h.symm))]
    · rw [if_neg hn]
      by_cases hq : q = k
      · rw [if_pos hq, hq, alookup_append_single, hk]
        have hn0 : n = 0 := by omega
        subst hn0
        simp
      · rw [if_neg hq, alookup_append_single]
        cases hdq : alookup d q with
        | some w => rfl
        | none => rw [if_neg (fun h => hq (h.symm))]

theorem keys_map_update (d : List (Option Char × Nat)) (k : Option Char) (n : Nat) :
    (d.map (fun p => if p.1 = k then (p.1, n) else p)).map Prod.fst = d.map Prod.fst := by
  induction d with
  | nil => rfl
  | cons p d ih =>
    by_cases h : p.1 = k <;> simp [h, ih]

theorem keys_close (d : List (Option Char × Nat)) (k : Option Char) (n : Nat) :
    (close d k n).map Prod.fst =
      if (alookup d k).isSome then d.map Prod.fst else d.map Prod.fst ++ [k] := by
  unfold close ddRead
  cases hk : alookup d k with
  | some v =>
    simp only [Option.isSome_some, if_true]
    by_cases hn : n > v
    · rw [if_pos hn]
      unfold ddWrite
      rw [if_pos (by rw [hk]; rfl), keys_map_update]
    · rw [if_neg hn]
  | none =>
    simp only [Option.isSome_none, Bool.false_eq_true, if_false]
    by_cases hn : n > 0
    · rw [if_pos hn]
      unfold ddWrite
      have hk2 : alookup (d ++ [(k, 0)]) k = some 0 := by
        rw [alookup_append_single, hk]
        simp
      rw [if_pos (by rw [hk2]; rfl), keys_map_update, List.map_append]
      rfl
    · rw [if_neg hn, List.map_append]
      rfl

theorem nodup_keys_close (d : List (Option Char × Nat)) (k : Option Char) (n : Nat)
    (h : (d.map Prod.fst).Nodup) : ((close d k n).map Prod.fst).Nodup := by
  rw [keys_close]
  by_cases hk : (alookup d k).isSome
  · rw [if_pos hk]
    exact h
  · rw [if_neg hk]
    have hk2 : k ∉ d.map Prod.fst :=
      alookup_eq_none_iff.mp (Option.not_isSome_iff_eq_none.mp hk)
    simp [List.nodup_append, h, hk2]

/-- The sequence of close-outs performed by version1 over a list of runs. -/
def closeFold (d : List (Option Char × Nat)) (rs : List (Char × Nat)) :
    List (Option Char × Nat) :=
  rs.foldl (fun d p => close d (some p.1) p.2) d

theorem closeFold_cons (d : List (Option Char × Nat)) (p : Char × Nat)
    (rs : List (Char × Nat)) :
    closeFold d (p :: rs) = closeFold (close d (some p.1) p.2) rs := rfl

theorem nodup_keys_closeFold (rs : List (Char × Nat)) :
    ∀ d, (d.map Prod.fst).Nodup → ((closeFold d rs).map Prod.fst).Nodup := by
  induction rs with
  | nil => exact fun d h => h
  | cons p rs ih => exact fun d h => ih _ (nodup_keys_close _ _ _ h)

/-- Looking up a key after a sequence of close-outs merges, on top of the
original stored value, the lengths of all runs carrying that key. -/
theorem alookup_closeFold (rs : List (Char × Nat)) :
    ∀ (d : List (Option Char × Nat)) (q : Option Char),
    alookup (closeFold d rs) q =
      mergeVals (alookup d q)
        ((rs.filter (fun p => decide ((some p.1 : Option Char) = q))).map Prod.snd) := by
  induction rs with
  | nil => exact fun d q => rfl
  | cons p rs ih =>
    intro d q
    rw [closeFold_cons, ih]
    by_cases hq : (some p.1 : Option Char) = q
    · rw [List.filter_cons_of_pos (by simp [hq]), List.map_cons, mergeVals_cons]
      congr 1
      rw [alookup_close, if_pos hq.symm, hq]
    · rw [List.filter_cons_of_neg (by simp [hq])]
      congr 1
      rw [alookup_close, if_neg (fun h => hq h.symm)]

/-! ### The version1 loop, decomposed along runs -/

/-- The close-out performed after version1's loop (lines 100-101). -/
def v1finish (st : V1State) : List (Option Char × Nat) :=
  close st.counts st.cur st.cnt

theorem foldl_v1step_replicate_same (d : List (Option Char × Nat)) (c : Char)
    (m j : Nat) :
    (List.replicate j c).foldl v1step ⟨d, some c, m⟩ = ⟨d, some c, m + j⟩ := by
  induction j generalizing m with
  | zero => rfl
  | succ j ih =>
    rw [List.replicate_succ, List.foldl_cons]
    have hstep : v1step ⟨d, some c, m⟩ c = ⟨d, some c, m + 1⟩ := by
      unfold v1step
      rw [if_pos rfl]
    rw [hstep, ih]
    congr 1
    omega

/-- Folding the flattened runs through version1's loop and closing out equals
the sequence of close-outs, one per run. -/
theorem v1loop_closes (rs : List (Char × Nat)) :
    ∀ (d : List (Option Char × Nat)) (c : Char) (m : Nat),
      (∀ p ∈ rs, 1 ≤ p.2) →
      ((c, m) :: rs).Chain' (fun p q => p.1 ≠ q.1) →
      v1finish ((rs.flatMap (fun p => List.replicate p.2 p.1)).foldl v1step
        ⟨d, some c, m⟩) = closeFold d ((c, m) :: rs) := by
  induction rs with
  | nil =>
    intro d c m h1 h2
    rfl
  | cons p rs ih =>
    intro d c m hpos hchain
    rcases p with ⟨x, n⟩
    have hxc : c ≠ x := by
      have := (List.chain'_cons.mp hchain).1
      simpa using this
    have hn : 1 ≤ n := hpos (x, n) (List.mem_cons_self _ _)
    rw [List.flatMap_cons, List.foldl_append]
    have h1 : (List.replicate n x).foldl v1step ⟨d, some c, m⟩ =
        ⟨close d (some c) m, some x, n⟩ := by
      cases n with
      | zero => omega
      | succ n' =>
        rw [List.replicate_succ, List.foldl_cons]
        have hstep : v1step ⟨d, some c, m⟩ x = ⟨close d (some c) m, some x, 1⟩ := by
          unfold v1step
          rw [if_neg (by simp [hxc])]
        rw [hstep, foldl_v1step_replicate_same]
        congr 1
        omega
    rw [h1]
    have hchain' : ((x, n) :: rs).Chain' (fun p q => p.1 ≠ q.1) :=
      (List.chain'_cons.mp hchain).2
    rw [ih (close d (some c) m) x n (fun p hp => hpos p (List.mem_cons_of_mem _ hp))
      hchain']
    rfl

/-- Version1's whole loop (seeded with `current_letter = None`, whose
defaultdict read plants the `(None, 0)` entry) followed by the final close-out
equals the per-run close-outs over the run-length encoding. -/
theorem v1loop_eq_closeFold {s : List Char} (hs : s ≠ []) :
    v1finish (s.foldl v1step ⟨[], none, 0⟩) = closeFold [(none, 0)] (runs s) := by
  cases s with
  | nil => exact absurd rfl hs
  | cons a t =>
    obtain ⟨k, rs, hk, hk1⟩ := runs_cons_head a t
    have hflat : List.replicate k a ++ rs.flatMap (fun p => List.replicate p.2 p.1) =
        a :: t := by
      have h := runs_flat (a :: t)
      rw [hk, List.flatMap_cons] at h
      exact h
    rw [hk, ← hflat, List.foldl_append]
    have h0 : (List.replicate k a).foldl v1step ⟨[], none, 0⟩ =
        ⟨[(none, 0)], some a, k⟩ := by
      cases k with
      | zero => omega
      | succ k' =>
        rw [List.replicate_succ, List.foldl_cons]
        have hstep : v1step ⟨[], none, 0⟩ a = ⟨[(none, 0)], some a, 1⟩ := by
          unfold v1step
          rw [if_neg (by simp)]
          rfl
        rw [hstep, foldl_v1step_replicate_same]
        congr 1
        omega
    rw [h0]
    apply v1loop_closes
    · intro p hp
      exact runs_pos p (by rw [hk]; exact List.mem_cons_of_mem _ hp)
    · have h2 := runs_chain (a :: t)
      rwa [hk] at h2

theorem alookup_filter_isSome (d : List (Option Char × Nat)) (x : Char) :
    alookup (d.filter (fun p => p.1.isSome)) (some x) = alookup d (some x) := by
  induction d with
  | nil => rfl
  | cons p d ih =>
    cases hp : p.1 with
    | none =>
      rw [List.filter_cons_of_neg (by simp [hp]), ih, alookup_cons,
        if_neg (by rw [hp]; simp)]
    | some y =>
      rw [List.filter_cons_of_pos (by simp [hp]), alookup_cons, alookup_cons, ih]

theorem alookup_filter_of_none {α : Type} [DecidableEq α] {l : List (α × Nat)} {q : α}
    (f : α × Nat → Bool) (h : alookup l q = none) : alookup (l.filter f) q = none := by
  rw [alookup_eq_none_iff] at h ⊢
  intro hmem
  exact h ((List.Sublist.map Prod.fst (List.filter_sublist l)).subset hmem)

/-- Looking up in the value-filtered dict: the stored value survives iff it
matches the filter.  Requires distinct keys (true of Python dicts). -/
theorem alookup_filter_val {α : Type} [DecidableEq α] (l : List (α × Nat)) (m : Nat)
    (q : α) (hnd : (l.map Prod.fst).Nodup) :
    alookup (l.filter (fun p => p.2 == m)) q =
      match alookup l q with
      | some v => if v = m then some v else none
      | none => none := by
  induction l with
  | nil => rfl
  | cons p l ih =>
    simp only [List.map_cons, List.nodup_cons] at hnd
    by_cases hpq : p.1 = q
    · by_cases hv : p.2 = m
      · rw [List.filter_cons_of_pos (by simp [hv]), alookup_cons, alookup_cons,
          if_pos hpq, if_pos hpq]
        simp [hv]
      · have hq : alookup l q = none :=
          alookup_eq_none_iff.mpr (by rw [← hpq]; exact hnd.1)
        rw [List.filter_cons_of_neg (by simp [hv]), alookup_cons, if_pos hpq,
          alookup_filter_of_none _ hq]
        simp [hv]
    · by_cases hv : p.2 = m
      · rw [List.filter_cons_of_pos (by simp [hv]), alookup_cons, alookup_cons,
          if_neg hpq, if_neg hpq, ih hnd.2]
      · rw [List.filter_cons_of_neg (by simp [hv]), alookup_cons, if_neg hpq, ih hnd.2]

/-- Converting the `Option Char`-keyed dict to a `Char`-keyed one (all remaining
keys being `some`) preserves lookups. -/
theorem alookup_filterMap_strip (l : List (Option Char × Nat)) (c : Char) :
    alookup (l.filterMap (fun p => p.1.map (fun x => (x, p.2)))) c =
      alookup l (some c) := by
  induction l with
  | nil => rfl
  | cons p l ih =>
    cases hp : p.1 with
    | none => simp [List.filterMap_cons, hp, ih]
    | some y =>
      simp only [List.filterMap_cons, hp, Option.map_some', alookup_cons, ih]
      by_cases hyc : y = c
      · simp [hyc]
      · simp [hyc]

theorem alookup_D_char (s : List Char) (x : Char) :
    alookup (closeFold [(none, 0)] (runs s)) (some x) =
      mergeVals none (((runs s).filter (fun p => decide (p.1 = x))).map Prod.snd) := by
  rw [alookup_closeFold]
  have h1 : alookup [((none : Option Char), 0)] (some x) = none := rfl
  rw [h1]
  congr 2
  apply List.filter_congr
  intro p hp
  simp

/-- The per-character maximum stored by version1 never exceeds the global
maximum run length. -/
theorem vals_le_maxRunLen (s : List Char) (x : Char) :
    ∀ w ∈ ((runs s).filter (fun p => decide (p.1 = x))).map Prod.snd,
      w ≤ maxRunLen s := by
  intro w hw
  rcases List.mem_map.mp hw with ⟨p, hp, rfl⟩
  have hp' := (List.mem_filter.mp hp).1
  rw [maxRunLen_eq_natmax_runs]
  exact le_natmax_of_mem (List.mem_map_of_mem Prod.snd hp')

/-- A character's stored value in version1's dict equals the global maximum iff
the character attains it. -/
theorem alookup_D_eq_max_iff {s : List Char} (hs : s ≠ []) (x : Char) :
    alookup (closeFold [(none, 0)] (runs s)) (some x) = some (maxRunLen s) ↔
      hasRunB s x (maxRunLen s) = true := by
  have hM1 := maxRunLen_pos hs
  rw [alookup_D_char, mergeVals_none_eq, hasRunB_maxRunLen_iff hs]
  constructor
  · intro h
    by_cases he : (((runs s).filter (fun p => decide (p.1 = x))).map Prod.snd).isEmpty
    · rw [if_pos he] at h
      exact absurd h (by simp)
    · rw [if_neg he] at h
      have h' : natmax (((runs s).filter (fun p => decide (p.1 = x))).map Prod.snd) =
          maxRunLen s := by
        injection h
      have hvne : ((runs s).filter (fun p => decide (p.1 = x))).map Prod.snd ≠ [] := by
        simpa [List.isEmpty_iff] using he
      rcases natmax_mem hvne with hm | hm
      · rw [h'] at hm
        rcases List.mem_map.mp hm with ⟨p, hp, hp2⟩
        have h2 := List.mem_filter.mp hp
        exact ⟨p, h2.1, by simpa using h2.2, hp2⟩
      · rw [h'] at hm
        omega
  · rintro ⟨p, hp, hp1, hp2⟩
    have hmemv : maxRunLen s ∈ ((runs s).filter (fun p => decide (p.1 = x))).map
        Prod.snd :=
      List.mem_map.mpr ⟨p, List.mem_filter.mpr ⟨hp, by simp [hp1]⟩, hp2⟩
    rw [if_neg (fun h => (List.ne_nil_of_mem hmemv) (List.isEmpty_iff.mp h))]
    congr 1
    exact Nat.le_antisymm (natmax_le (vals_le_maxRunLen s x)) (le_natmax_of_mem hmemv)

/-- Every value stored for a character key is bounded by the maximum run
length. -/
theorem alookup_D_le {s : List Char} (x : Char) {v : Nat}
    (h : alookup (closeFold [(none, 0)] (runs s)) (some x) = some v) :
    v ≤ maxRunLen s := by
  rw [alookup_D_char, mergeVals_none_eq] at h
  by_cases he : (((runs s).filter (fun p => decide (p.1 = x))).map Prod.snd).isEmpty
  · rw [if_pos he] at h
    exact absurd h (by simp)
  · rw [if_neg he] at h
    have h' : natmax (((runs s).filter (fun p => decide (p.1 = x))).map Prod.snd) = v := by
      injection h
    rw [← h']
    exact natmax_le (vals_le_maxRunLen s x)

/-- Core correctness of the linear scan: on a nonempty sequence its result, read
as a mapping, is exactly the canonical per-sequence result. -/
theorem v1core_lookup {s : List Char} (hs : s ≠ []) (c : Char) :
    alookup (v1core s) c = scanSpec s c := by
  have hM1 := maxRunLen_pos hs
  have hD : close ((s.foldl v1step ⟨[], none, 0⟩)).counts
      ((s.foldl v1step ⟨[], none, 0⟩)).cur ((s.foldl v1step ⟨[], none, 0⟩)).cnt =
      closeFold [(none, 0)] (runs s) := v1loop_eq_closeFold hs
  have hnd : ((closeFold [(none, 0)] (runs s)).map Prod.fst).Nodup :=
    nodup_keys_closeFold _ _ (by simp)
  have hndd3 : (((closeFold [(none, 0)] (runs s)).filter
      (fun p => p.1.isSome)).map Prod.fst).Nodup :=
    List.Nodup.sublist (List.Sublist.map Prod.fst (List.filter_sublist _)) hnd
  -- the maximum is attained by some run
  have hex : ∃ p ∈ runs s, p.2 = maxRunLen s := by
    have hne : (runs s).map Prod.snd ≠ [] := by
      simp only [ne_eq, List.map_eq_nil_iff]
      exact fun h => hs (runs_eq_nil_iff.mp h)
    rcases natmax_mem hne with hm | hm
    · rcases List.mem_map.mp hm with ⟨p, hp, hp2⟩
      exact ⟨p, hp, by rw [maxRunLen_eq_natmax_runs]; exact hp2⟩
    · rw [maxRunLen_eq_natmax_runs] at hM1
      omega
  obtain ⟨pm, hpm, hpm2⟩ := hex
  have hxm : alookup (closeFold [(none, 0)] (runs s)) (some pm.1) =
      some (maxRunLen s) := by
    rw [alookup_D_eq_max_iff hs, hasRunB_maxRunLen_iff hs]
    exact ⟨pm, hpm, rfl, hpm2⟩
  have hmem3 : ((some pm.1 : Option Char), maxRunLen s) ∈
      (closeFold [(none, 0)] (runs s)).filter (fun p => p.1.isSome) :=
    List.mem_filter.mpr ⟨mem_of_alookup_eq_some hxm, by simp⟩
  have hne3 : ((closeFold [(none, 0)] (runs s)).filter
      (fun p => p.1.isSome)).isEmpty = false :=
    List.isEmpty_eq_false.mpr (List.ne_nil_of_mem hmem3)
  -- bound every value in the filtered dict
  have hbound : ∀ v ∈ ((closeFold [(none, 0)] (runs s)).filter
      (fun p => p.1.isSome)).map Prod.snd, v ≤ maxRunLen s := by
    intro v hv
    rcases List.mem_map.mp hv with ⟨p, hp, rfl⟩
    have h2 := List.mem_filter.mp hp
    rcases Option.isSome_iff_exists.mp h2.2 with ⟨x, hx⟩
    have hl : alookup (closeFold [(none, 0)] (runs s)) p.1 = some p.2 :=
      alookup_eq_some_of_mem_nodup hnd h2.1
    rw [hx] at hl
    exact alookup_D_le x hl
  have hmax3 : natmax (((closeFold [(none, 0)] (runs s)).filter
      (fun p => p.1.isSome)).map Prod.snd) = maxRunLen s :=
    Nat.le_antisymm (natmax_le hbound)
      (le_natmax_of_mem (List.mem_map_of_mem Prod.snd hmem3))
  -- now unfold v1core
  simp only [v1core]
  rw [hD, if_neg (by rw [hne3]; simp), hmax3, alookup_filterMap_strip,
    alookup_filter_val _ _ _ hndd3, alookup_filter_isSome, scanSpec]
  by_cases hc : hasRunB s c (maxRunLen s) = true
  · rw [if_pos hc, (alookup_D_eq_max_iff hs c).mpr hc]
    simp
  · rw [if_neg hc]
    cases hl : alookup (closeFold [(none, 0)] (runs s)) (some c) with
    | none => rfl
    | some v =>
      have hvm : ¬ v = maxRunLen s := by
        intro he
        exact hc ((alookup_D_eq_max_iff hs c).mp (he ▸ hl))
      simp [hvm]

/-! ### The aggregation fold `all_longest` -/

theorem alookup_map_update_max {α : Type} [DecidableEq α] (d : List (α × Nat))
    (k : α) (v : Nat) (q : α) :
    alookup (d.map (fun p => if p.1 = k then (p.1, max p.2 v) else p)) q =
      if q = k then (alookup d k).map (fun w => max w v) else alookup d q := by
  induction d with
  | nil =>
    simp only [List.map_nil, alookup_nil, Option.map_none]
    split <;> rfl
  | cons p d ih =>
    by_cases hpk : p.1 = k
    · by_cases hqk : q = k
      · subst hqk
        simp [hpk, ih]
      · have h1 : ¬ p.1 = q := by rw [hpk]; exact fun h => hqk h.symm
        have h2 : ¬ k = q := fun h => hqk h.symm
        simp [hpk, h1, hqk, h2, ih]
    · by_cases hpq : p.1 = q
      · have hqk : ¬ q = k := fun h => hpk (h ▸ hpq)
        simp [hpk, hpq, hqk]
      · simp [hpk, hpq, ih]

/-- The net effect of one `all_longest` update on lookups. -/
theorem alookup_dUpsertMax (d : PyDict) (k : Char) (v : Nat) (c : Char) :
    alookup (dUpsertMax d k v) c =
      if c = k then some (max ((alookup d k).getD 0) v) else alookup d c := by
  unfold dUpsertMax
  cases hk : alookup d k with
  | some w =>
    rw [if_pos (show (some w).isSome = true from rfl), alookup_map_update_max, hk]
    by_cases hc : c = k
    · rw [if_pos hc, if_pos hc]
      rfl
    · rw [if_neg hc, if_neg hc]
  | none =>
    rw [if_neg (show ¬ (none : Option Nat).isSome = true by simp), alookup_append_single]
    by_cases hc : c = k
    · subst hc
      rw [hk]
      simp
    · rw [if_neg hc]
      cases hdc : alookup d c with
      | some w => rfl
      | none => rw [if_neg (fun h => hc h.symm)]

theorem alookup_foldl_upsert (d : PyDict) :
    ∀ (acc : PyDict) (c : Char),
    alookup (d.foldl (fun a p => dUpsertMax a p.1 p.2) acc) c =
      mergeVals (alookup acc c) ((d.filter (fun p => decide (p.1 = c))).map Prod.snd) := by
  induction d with
  | nil => exact fun acc c => rfl
  | cons p d ih =>
    intro acc c
    rw [List.foldl_cons, ih]
    by_cases hp : p.1 = c
    · rw [List.filter_cons_of_pos (by simp [hp]), List.map_cons, mergeVals_cons]
      congr 1
      rw [alookup_dUpsertMax, if_pos hp.symm, hp]
    · rw [List.filter_cons_of_neg (by simp [hp])]
      congr 1
      rw [alookup_dUpsertMax, if_neg (fun h => hp h.symm)]

/-- The lengths mentioned for character `c` across a list of result dicts, in
processing order. -/
def valsFor (c : Char) (ds : List PyDict) : List Nat :=
  ds.flatMap (fun d => (d.filter (fun p => decide (p.1 = c))).map Prod.snd)

theorem valsFor_cons (c : Char) (d : PyDict) (ds : List PyDict) :
    valsFor c (d :: ds) =
      ((d.filter (fun p => decide (p.1 = c))).map Prod.snd) ++ valsFor c ds :=
  List.flatMap_cons ..

theorem mergeVals_append (o : Option Nat) (vs ws : List Nat) :
    mergeVals o (vs ++ ws) = mergeVals (mergeVals o vs) ws :=
  List.foldl_append ..

/-- Lookup characterization of the aggregation: the stored value for `c` is the
merge (max with defaultdict base) of every length mentioned for `c`. -/
theorem alookup_all_longest (ds : List PyDict) (c : Char) :
    alookup (all_longest ds) c = mergeVals none (valsFor c ds) := by
  suffices h : ∀ acc, alookup (ds.foldl
      (fun acc d => d.foldl (fun a p => dUpsertMax a p.1 p.2) acc) acc) c =
      mergeVals (alookup acc c) (valsFor c ds) from h []
  induction ds with
  | nil => exact fun acc => rfl
  | cons d ds ih =>
    intro acc
    rw [List.foldl_cons, ih, alookup_foldl_upsert, valsFor_cons, mergeVals_append]

theorem mem_valsFor {c : Char} {w : Nat} {ds : List PyDict} :
    w ∈ valsFor c ds ↔ ∃ d ∈ ds, (c, w) ∈ d := by
  simp only [valsFor, List.mem_flatMap, List.mem_map, List.mem_filter,
    decide_eq_true_eq]
  constructor
  · rintro ⟨d, hd, p, ⟨hp, rfl⟩, rfl⟩
    exact ⟨d, hd, hp⟩
  · rintro ⟨d, hd, hp⟩
    exact ⟨d, hd, (c, w), ⟨hp, rfl⟩, rfl⟩

theorem valsFor_eq_nil_iff {c : Char} {ds : List PyDict} :
    valsFor c ds = [] ↔ ∀ d ∈ ds, ∀ p ∈ d, p.1 ≠ c := by
  simp [valsFor, List.flatMap_eq_nil_iff, List.map_eq_nil_iff, List.filter_eq_nil_iff]

theorem natmax_perm {l₁ l₂ : List Nat} (h : l₁.Perm l₂) : natmax l₁ = natmax l₂ := by
  induction h with
  | nil => rfl
  | cons a h ih => rw [natmax_cons, natmax_cons, ih]
  | swap a b l =>
    simp only [natmax_cons]
    omega
  | trans h1 h2 ih1 ih2 => exact ih1.trans ih2

theorem mergeVals_none_perm {l₁ l₂ : List Nat} (h : l₁.Perm l₂) :
    mergeVals none l₁ = mergeVals none l₂ := by
  cases l₁ with
  | nil =>
    rw [h.symm.eq_nil]
  | cons v t =>
    cases l₂ with
    | nil => exact absurd h.eq_nil (by simp)
    | cons w u =>
      rw [mergeVals_none_eq, mergeVals_none_eq, natmax_perm h]
      rfl

theorem valsFor_perm {ds₁ ds₂ : List PyDict} (h : ds₁.Perm ds₂) (c : Char) :
    (valsFor c ds₁).Perm (valsFor c ds₂) := by
  induction h with
  | nil => exact List.Perm.refl _
  | cons d h ih =>
    rw [valsFor_cons, valsFor_cons]
    exact List.Perm.append_left _ ih
  | swap d₁ d₂ l =>
    rw [valsFor_cons, valsFor_cons, valsFor_cons, valsFor_cons,
      ← List.append_assoc, ← List.append_assoc]
    exact List.Perm.append_right _ List.perm_append_comm
  | trans h1 h2 ih1 ih2 => exact ih1.trans ih2

theorem all_longest_of_empties {ds : List PyDict} (h : ∀ d ∈ ds, d = []) :
    all_longest ds = [] := by
  induction ds with
  | nil => rfl
  | cons d ds ih =>
    have hd := h d (List.mem_cons_self _ _)
    subst hd
    exact ih fun d hd => h d (List.mem_cons_of_mem _ hd)

/-! ### Control flow of the two wrappers -/

theorem version2_eq_ok {seq : List Char} {stop_codon gap : String} {cs : Bool}
    (hne : seq ≠ []) (hstop : stop_codon.length ≤ 1) (hgap : gap.length ≤ 1)
    (hval : pyIsAlpha (pyDel (pyDel (if cs then seq else seq.map Char.toLower)
      stop_codon) gap) = true) :
    longest_contiguous_version2 seq stop_codon gap cs =
      .ok (v2core (if cs then seq else seq.map Char.toLower)) := by
  simp only [longest_contiguous_version2]
  rw [if_neg (by simp [hne]), if_neg (by omega), if_neg (by simp [hval])]

theorem version2_config_error {seq : List Char} {stop_codon gap : String} {cs : Bool}
    (hne : seq ≠ []) (hcfg : 1 < stop_codon.length ∨ 1 < gap.length) :
    longest_contiguous_version2 seq stop_codon gap cs =
      .error (.valueError configMsg) := by
  simp only [longest_contiguous_version2]
  rw [if_neg (by simp [hne]), if_pos hcfg]

theorem version2_content_error {seq : List Char} {stop_codon gap : String} {cs : Bool}
    (hne : seq ≠ []) (hstop : stop_codon.length ≤ 1) (hgap : gap.length ≤ 1)
    (hval : pyIsAlpha (pyDel (pyDel (if cs then seq else seq.map Char.toLower)
      stop_codon) gap) = false) :
    longest_contiguous_version2 seq stop_codon gap cs =
      .error (.valueError (contentMsg2 stop_codon gap)) := by
  simp only [longest_contiguous_version2]
  rw [if_neg (by simp [hne]), if_neg (by omega), if_pos (by simp [hval])]

theorem version2_empty (stop_codon gap : String) (cs : Bool) :
    longest_contiguous_version2 [] stop_codon gap cs = .ok [] := rfl

theorem version1_eq_ok {seq : List Char} {stop_codon gap : String} {cs : Bool}
    (hne : seq ≠ []) (hstop : stop_codon.length ≤ 1) (hgap : gap.length ≤ 1)
    (hval : pyIsAlpha (pyDel (pyDel (seq.map Char.toLower) stop_codon) gap) = true) :
    longest_contiguous_version1 seq stop_codon gap cs =
      .ok (v1core (seq.map Char.toLower)) := by
  simp only [longest_contiguous_version1]
  rw [if_neg (by simp [hne]), if_neg (by omega), if_neg (by simp [hval])]

/-- Inversion: every error version2 raises is either the configuration error or
the content error, and the case is determined by the configuration lengths. -/
theorem version2_error_inv {seq : List Char} {stop_codon gap : String} {cs : Bool}
    {e : PyError}
    (h : longest_contiguous_version2 seq stop_codon gap cs = .error e) :
    (e = .valueError configMsg ∧ (1 < stop_codon.length ∨ 1 < gap.length)) ∨
    (e = .valueError (contentMsg2 stop_codon gap) ∧
      stop_codon.length ≤ 1 ∧ gap.length ≤ 1) := by
  by_cases hne : seq = []
  · subst hne
    rw [version2_empty] at h
    exact absurd h (by simp)
  · by_cases hcfg : 1 < stop_codon.length ∨ 1 < gap.length
    · rw [version2_config_error hne hcfg] at h
      refine Or.inl ⟨?_, hcfg⟩
      injection h with h2
      exact h2.symm
    · have hstop : stop_codon.length ≤ 1 := by omega
      have hgap : gap.length ≤ 1 := by omega
      cases hval : pyIsAlpha (pyDel (pyDel (if cs then seq else seq.map Char.toLower)
          stop_codon) gap) with
      | true =>
        rw [version2_eq_ok hne hstop hgap hval] at h
        exact absurd h (by simp)
      | false =>
        rw [version2_content_error hne hstop hgap hval] at h
        refine Or.inr ⟨?_, hstop, hgap⟩
        injection h with h2
        exact h2.symm

/-- Inversion of a successful version1 call on a nonempty sequence. -/
theorem version1_ok_inv {seq : List Char} {stop_codon gap : String} {cs : Bool}
    {d : PyDict} (hne : seq ≠ [])
    (h : longest_contiguous_version1 seq stop_codon gap cs = .ok d) :
    d = v1core (seq.map Char.toLower) := by
  by_cases hcfg : 1 < stop_codon.length ∨ 1 < gap.length
  · rw [show longest_contiguous_version1 seq stop_codon gap cs =
        .error (.valueError configMsg) from by
      simp only [longest_contiguous_version1]
      rw [if_neg (by simp [hne]), if_pos hcfg]] at h
    exact absurd h (by simp)
  · have hstop : stop_codon.length ≤ 1 := by omega
    have hgap : gap.length ≤ 1 := by omega
    cases hval : pyIsAlpha (pyDel (pyDel (seq.map Char.toLower) stop_codon) gap) with
    | true =>
      rw [version1_eq_ok hne hstop hgap hval] at h
      injection h with h2
      exact h2.symm
    | false =>
      rw [show longest_contiguous_version1 seq stop_codon gap cs =
          .error (.valueError (contentMsg1 stop_codon gap)) from by
        simp only [longest_contiguous_version1]
        rw [if_neg (by simp [hne]), if_neg (by omega), if_pos (by simp [hval])]] at h
      exact absurd h (by simp)

/-- Inversion of a successful version2 call on a nonempty sequence. -/
theorem version2_ok_inv {seq : List Char} {stop_codon gap : String} {cs : Bool}
    {d : PyDict} (hne : seq ≠ [])
    (h : longest_contiguous_version2 seq stop_codon gap cs = .ok d) :
    d = v2core (if cs then seq else seq.map Char.toLower) := by
  by_cases hcfg : 1 < stop_codon.length ∨ 1 < gap.length
  · rw [version2_config_error hne hcfg] at h
    exact absurd h (by simp)
  · have hstop : stop_codon.length ≤ 1 := by omega
    have hgap : gap.length ≤ 1 := by omega
    cases hval : pyIsAlpha (pyDel (pyDel (if cs then seq else seq.map Char.toLower)
        stop_codon) gap) with
    | true =>
      rw [version2_eq_ok hne hstop hgap hval] at h
      injection h with h2
      exact h2.symm
    | false =>
      rw [version2_content_error hne hstop hgap hval] at h
      exact absurd h (by simp)

/-- The configuration error message and the content error message differ, for
every configuration (their first characters already differ). -/
theorem configMsg_ne_contentMsg2 (stop_codon gap : String) :
    configMsg ≠ contentMsg2 stop_codon gap := by
  intro h
  have h2 := congrArg (fun s => s.data.head?) h
  simp only [configMsg, contentMsg2, String.data_append] at h2
  simp at h2

/-- Lowercasing does not move a non-alphabetic character. -/
theorem toLower_of_not_alpha {c : Char} (h : c.isAlpha = false) : c.toLower = c := by
  unfold Char.toLower
  rw [if_neg]
  intro hcond
  simp [Char.isAlpha, Char.isUpper, Char.isLower] at h
  obtain ⟨h1, h2⟩ := hcond
  simp [Char.toNat] at h1 h2
  have h5 : 90 < c.val.toNat := h.1 h1
  omega

theorem mem_pyDel_iff {s : List Char} {pat : String} {c : Char} :
    c ∈ pyDel s pat ↔ c ∈ s ∧ ∀ x, pat.toList = [x] → c ≠ x := by
  unfold pyDel
  cases h : pat.toList with
  | nil => simp
  | cons x t =>
    cases t with
    | nil =>
      simp only [List.mem_filter, bne_iff_ne, ne_eq]
      constructor
      · rintro ⟨hc, hne⟩
        refine ⟨hc, fun y hy => ?_⟩
        obtain rfl : x = y := by
          injection hy with hy1 hy2
        exact hne
      · rintro ⟨hc, hall⟩
        exact ⟨hc, hall x rfl⟩
    | cons z t' =>
      constructor
      · intro hc
        exact ⟨hc, fun y hy => by simp at hy⟩
      · rintro ⟨hc, -⟩
        exact hc

theorem pyIsAlpha_false_of_mem {l : List Char} {c : Char} (hc : c ∈ l)
    (h : c.isAlpha = false) : pyIsAlpha l = false := by
  unfold pyIsAlpha
  have h2 : l.all Char.isAlpha = false := by
    rw [List.all_eq_false]
    exact ⟨c, hc, by simp [h]⟩
  rw [h2, Bool.and_false]

/-- A non-alphabetic character surviving removal from the raw sequence also
survives removal from the case-normalized sequence. -/
theorem survivor_in_norm {seq : List Char} {stop_codon gap : String} {c : Char}
    (hc : c ∈ pyDel (pyDel seq stop_codon) gap) (hal : c.isAlpha = false)
    (cs : Bool) :
    c ∈ pyDel (pyDel (if cs then seq else seq.map Char.toLower) stop_codon) gap := by
  cases cs with
  | true => simpa using hc
  | false =>
    show c ∈ pyDel (pyDel (seq.map Char.toLower) stop_codon) gap
    rw [mem_pyDel_iff] at hc ⊢
    obtain ⟨hc1, hgap⟩ := hc
    rw [mem_pyDel_iff] at hc1 ⊢
    obtain ⟨hc2, hstop⟩ := hc1
    refine ⟨⟨?_, hstop⟩, hgap⟩
    have := List.mem_map_of_mem Char.toLower hc2
    rwa [toLower_of_not_alpha hal] at this

/-! ### The claims -/

/-- Claim C1: for every valid non-empty sequence (a Bio.Seq value, hence ASCII,
whose case-normalized content is alphabetic once the configured stop-codon and
gap symbols are removed, with those symbols at most one character),
`longest_contiguous` returns a mapping whose keys are exactly the characters
achieving the brute-force maximum contiguous-run length of the case-normalized
sequence, each mapped to that one number (ties all retained). -/
theorem claim_c1_scan_bruteforce (seq : List Char) (stop_codon gap : String)
    (case_sensitive : Bool)
    (hascii : ∀ c ∈ seq, c.toNat < 128) (hne : seq ≠ [])
    (hstop : stop_codon.length ≤ 1) (hgap : gap.length ≤ 1)
    (hval : pyIsAlpha (pyDel (pyDel (if case_sensitive then seq else
      seq.map Char.toLower) stop_codon) gap) = true) :
    ∃ d, longest_contiguous seq stop_codon gap case_sensitive = .ok d ∧
      ∀ c, alookup d c =
        if hasRunB (if case_sensitive then seq else seq.map Char.toLower) c
            (maxRunLen (if case_sensitive then seq else seq.map Char.toLower)) = true
        then some (maxRunLen (if case_sensitive then seq else seq.map Char.toLower))
        else none := by
  refine ⟨v2core (if case_sensitive then seq else seq.map Char.toLower),
    version2_eq_ok hne hstop hgap hval, fun c => ?_⟩
  have hnorm : (if case_sensitive then seq else seq.map Char.toLower) ≠ [] := by
    cases case_sensitive
    · simpa using hne
    · simpa using hne
  rw [v2core_lookup hnorm c]
  rfl

theorem claim_c1_witness :
    ((∀ c ∈ (['a', 'a', 'b'] : List Char), c.toNat < 128) ∧
      (['a', 'a', 'b'] : List Char) ≠ [] ∧
      ("" : String).length ≤ 1 ∧
      pyIsAlpha (pyDel (pyDel (if true then (['a', 'a', 'b'] : List Char) else
        (['a', 'a', 'b'] : List Char).map Char.toLower) "") "") = true) ∧
    (∃ d, longest_contiguous ['a', 'a', 'b'] "" "" true = .ok d ∧
      ∀ c, alookup d c =
        if hasRunB (if true then (['a', 'a', 'b'] : List Char) else
            (['a', 'a', 'b'] : List Char).map Char.toLower) c
            (maxRunLen (if true then (['a', 'a', 'b'] : List Char) else
              (['a', 'a', 'b'] : List Char).map Char.toLower)) = true
        then some (maxRunLen (if true then (['a', 'a', 'b'] : List Char) else
          (['a', 'a', 'b'] : List Char).map Char.toLower))
        else none) :=
  ⟨⟨by decide, by decide, by decide, by decide⟩,
    claim_c1_scan_bruteforce ['a', 'a', 'b'] "" "" true (by decide) (by decide)
      (by decide) (by decide) (by decide)⟩

/-- Claim C2 counterexample: on the sequence "aA" with case_sensitive=True,
neither version raises, yet version1 — which lowercases unconditionally —
returns a: 2 while version2 returns a: 1, A: 1; the mappings differ. -/
theorem claim_c2_counterexample :
    longest_contiguous_version1 ['a', 'A'] "" "" true = .ok [('a', 2)] ∧
    longest_contiguous_version2 ['a', 'A'] "" "" true = .ok [('a', 1), ('A', 1)] ∧
    ¬ DictEq [('a', 2)] [('a', 1), ('A', 1)] :=
  ⟨rfl, rfl, fun h => absurd (h 'a') (by decide)⟩

/-- Claim C2 (amended): when `case_sensitive` is false, version1 and version2
return identical result mappings on every input on which neither raises.
(Version1 lowercases unconditionally, so with `case_sensitive = true` the two
versions can disagree, as the counterexample shows.) -/
theorem claim_c2_versions_agree (seq : List Char) (stop_codon gap : String)
    {d₁ d₂ : PyDict}
    (h1 : longest_contiguous_version1 seq stop_codon gap false = .ok d₁)
    (h2 : longest_contiguous_version2 seq stop_codon gap false = .ok d₂) :
    DictEq d₁ d₂ := by
  by_cases hne : seq = []
  · subst hne
    rw [version2_empty] at h2
    rw [show longest_contiguous_version1 [] stop_codon gap false = .ok [] from rfl] at h1
    injection h1 with h1
    injection h2 with h2
    rw [← h1, ← h2]
    exact fun c => rfl
  · have e1 := version1_ok_inv hne h1
    have e2 := version2_ok_inv hne h2
    subst e1
    subst e2
    intro c
    rw [v1core_lookup (by simpa using hne) c]
    have h3 : (if false then seq else seq.map Char.toLower) = seq.map Char.toLower := rfl
    rw [h3, v2core_lookup (by simpa using hne) c]

theorem claim_c2_witness :
    longest_contiguous_version1 ['a', 'a', 'b'] "" "" false = .ok [('a', 2)] ∧
    longest_contiguous_version2 ['a', 'a', 'b'] "" "" false = .ok [('a', 2)] ∧
    DictEq [('a', 2)] [('a', 2)] :=
  ⟨rfl, rfl, claim_c2_versions_agree ['a', 'a', 'b'] "" "" rfl rfl⟩

/-- Claim C3: `all_longest` assigns to each character key the maximum length
over all input mappings that mention that key and contains no other keys; the
empty list yields the empty dict, a list of only empty dicts yields the empty
dict, and permuting the input list leaves the resulting mapping identical. -/
theorem claim_c3_all_longest (ds : List PyDict)
    (hpos : ∀ d ∈ ds, ∀ p ∈ d, 1 ≤ p.2) :
    (∀ c, alookup (all_longest ds) c = none ↔ ∀ d ∈ ds, ∀ p ∈ d, p.1 ≠ c) ∧
    (∀ c v, alookup (all_longest ds) c = some v →
      (∃ d ∈ ds, (c, v) ∈ d) ∧ ∀ d ∈ ds, ∀ p ∈ d, p.1 = c → p.2 ≤ v) ∧
    all_longest [] = [] ∧
    ((∀ d ∈ ds, d = []) → all_longest ds = []) ∧
    (∀ ds', ds'.Perm ds → DictEq (all_longest ds') (all_longest ds)) := by
  refine ⟨?_, ?_, rfl, all_longest_of_empties, ?_⟩
  · intro c
    rw [alookup_all_longest, mergeVals_none_eq]
    by_cases he : (valsFor c ds).isEmpty
    · rw [if_pos he]
      have he2 := List.isEmpty_iff.mp he
      exact ⟨fun _ => valsFor_eq_nil_iff.mp he2, fun _ => rfl⟩
    · rw [if_neg he]
      constructor
      · intro h
        exact absurd h (by simp)
      · intro hall
        exact absurd (valsFor_eq_nil_iff.mpr hall)
          (fun hnil => he (by simp [hnil]))
  · intro c v h
    rw [alookup_all_longest, mergeVals_none_eq] at h
    by_cases he : (valsFor c ds).isEmpty
    · rw [if_pos he] at h
      exact absurd h (by simp)
    · rw [if_neg he] at h
      injection h with h2
      have hvne : valsFor c ds ≠ [] := fun hnil => he (by simp [hnil])
      obtain ⟨w, hw⟩ := List.exists_mem_of_ne_nil _ hvne
      have hw1 : 1 ≤ w := by
        rcases mem_valsFor.mp hw with ⟨d, hd, hwd⟩
        exact hpos d hd _ hwd
      have hvw : w ≤ v := by
        rw [← h2]
        exact le_natmax_of_mem hw
      rcases natmax_mem hvne with hm | hm
      · rw [h2] at hm
        refine ⟨mem_valsFor.mp hm, ?_⟩
        intro d hd p hp hpc
        have hpeq : (c, p.2) = p := Prod.ext hpc.symm rfl
        have hmem : p.2 ∈ valsFor c ds := by
          refine mem_valsFor.mpr ⟨d, hd, ?_⟩
          rw [hpeq]
          exact hp
        rw [← h2]
        exact le_natmax_of_mem hmem
      · omega
  · intro ds' hperm c
    rw [alookup_all_longest, alookup_all_longest]
    exact mergeVals_none_perm (valsFor_perm hperm c)

theorem claim_c3_witness :
    (∀ d ∈ ([[('a', 4)], [('b', 6), ('a', 2)], [('b', 10)]] : List PyDict),
      ∀ p ∈ d, 1 ≤ p.2) ∧
    ((∀ c, alookup (all_longest [[('a', 4)], [('b', 6), ('a', 2)], [('b', 10)]]) c =
        none ↔
        ∀ d ∈ ([[('a', 4)], [('b', 6), ('a', 2)], [('b', 10)]] : List PyDict),
          ∀ p ∈ d, p.1 ≠ c) ∧
      (∀ c v, alookup (all_longest [[('a', 4)], [('b', 6), ('a', 2)], [('b', 10)]]) c =
          some v →
        (∃ d ∈ ([[('a', 4)], [('b', 6), ('a', 2)], [('b', 10)]] : List PyDict),
          (c, v) ∈ d) ∧
        ∀ d ∈ ([[('a', 4)], [('b', 6), ('a', 2)], [('b', 10)]] : List PyDict),
          ∀ p ∈ d, p.1 = c → p.2 ≤ v) ∧
      all_longest [] = [] ∧
      ((∀ d ∈ ([[('a', 4)], [('b', 6), ('a', 2)], [('b', 10)]] : List PyDict),
        d = []) → all_longest [[('a', 4)], [('b', 6), ('a', 2)], [('b', 10)]] = []) ∧
      (∀ ds', ds'.Perm [[('a', 4)], [('b', 6), ('a', 2)], [('b', 10)]] →
        DictEq (all_longest ds')
          (all_longest [[('a', 4)], [('b', 6), ('a', 2)], [('b', 10)]]))) :=
  ⟨by decide, claim_c3_all_longest [[('a', 4)], [('b', 6), ('a', 2)], [('b', 10)]]
    (by decide)⟩

/-- Claim C4 counterexample: with a two-character stop-codon symbol but an
empty sequence, `longest_contiguous` returns the empty dict instead of raising:
the empty-sequence short-circuit precedes the configuration guard. -/
theorem claim_c4_counterexample :
    longest_contiguous [] "ab" "" true = .ok [] := rfl

/-- Claim C4 (amended): for every NON-empty sequence, a stop-codon or gap
argument longer than one character makes `longest_contiguous` raise the
configuration error, regardless of the sequence content.  (On the empty
sequence the call instead returns the empty dict, as the counterexample
shows.) -/
theorem claim_c4_config_error (seq : List Char) (stop_codon gap : String)
    (case_sensitive : Bool) (hne : seq ≠ [])
    (hcfg : 1 < stop_codon.length ∨ 1 < gap.length) :
    longest_contiguous seq stop_codon gap case_sensitive =
      .error (.valueError configMsg) :=
  version2_config_error hne hcfg

theorem claim_c4_witness :
    ((['a'] : List Char) ≠ [] ∧ (1 < ("ab" : String).length ∨ 1 < ("" : String).length)) ∧
    longest_contiguous ['a'] "ab" "" true = .error (.valueError configMsg) :=
  ⟨⟨by decide, Or.inl (by decide)⟩,
    claim_c4_config_error ['a'] "ab" "" true (by decide) (Or.inl (by decide))⟩

/-- Claim C5: on the empty sequence `longest_contiguous` returns the empty dict
and raises nothing, for every configuration — including oversized stop-codon or
gap symbols. -/
theorem claim_c5_empty_ok (stop_codon gap : String) (case_sensitive : Bool) :
    longest_contiguous [] stop_codon gap case_sensitive = .ok [] := rfl

/-- Claim C6: a non-empty sequence that still contains a non-alphabetic
character after the configured (at most single-character) stop-codon and gap
symbols are removed makes `longest_contiguous` raise the content error; no
partial result is returned. -/
theorem claim_c6_invalid_input (seq : List Char) (stop_codon gap : String)
    (case_sensitive : Bool) (hne : seq ≠ [])
    (hstop : stop_codon.length ≤ 1) (hgap : gap.length ≤ 1)
    (hbad : ∃ c ∈ pyDel (pyDel seq stop_codon) gap, c.isAlpha = false) :
    longest_contiguous seq stop_codon gap case_sensitive =
      .error (.valueError (contentMsg2 stop_codon gap)) := by
  obtain ⟨c, hc, hal⟩ := hbad
  exact version2_content_error hne hstop hgap
    (pyIsAlpha_false_of_mem (survivor_in_norm hc hal case_sensitive) hal)

theorem claim_c6_witness :
    ((['a', '1'] : List Char) ≠ [] ∧ ("" : String).length ≤ 1 ∧
      (∃ c ∈ pyDel (pyDel ['a', '1'] "") "", c.isAlpha = false)) ∧
    longest_contiguous ['a', '1'] "" "" true =
      .error (.valueError (contentMsg2 "" "")) :=
  ⟨⟨by decide, by decide, by decide⟩,
    claim_c6_invalid_input ['a', '1'] "" "" true (by decide) (by decide)
      (by decide) (by decide)⟩

/-- Claim C7: `longest_contiguous` on "aaaaBBbbBBA" yields a: 4 when case
sensitive and b: 6 when not; in general, with `case_sensitive = false` the
sequence is lowercased before scanning (so the call agrees exactly with a
case-sensitive call on the lowercased sequence), while with `true` case
variants are distinct run characters. -/
theorem claim_c7_case_sensitivity :
    longest_contiguous "aaaaBBbbBBA".toList "" "" true = .ok [('a', 4)] ∧
    longest_contiguous "aaaaBBbbBBA".toList "" "" false = .ok [('b', 6)] ∧
    ∀ (seq : List Char) (stop_codon gap : String),
      longest_contiguous seq stop_codon gap false =
        longest_contiguous (seq.map Char.toLower) stop_codon gap true := by
  refine ⟨rfl, rfl, fun seq stop_codon gap => ?_⟩
  simp [longest_contiguous, longest_contiguous_version2, List.length_map]

/-- Claim C8: the configured stop-codon and gap symbols take part in the scan
as ordinary run characters, being exempted only from the content validation:
"a***b" with stop codon "*" yields *: 3, and "ab--c" with gap "-" yields
-: 2. -/
theorem claim_c8_symbols :
    longest_contiguous "a***b".toList "*" "" true = .ok [('*', 3)] ∧
    longest_contiguous "ab--c".toList "" "-" true = .ok [('-', 2)] :=
  ⟨rfl, rfl⟩

/-- Claim C9 counterexample: two calls with different offending characters
('1' and '2') raise literally identical errors, and the message contains
neither offending character — the error does not name the invalid content. -/
theorem claim_c9_counterexample :
    longest_contiguous ['a', '1'] "" "" true =
      .error (.valueError (contentMsg2 "" "")) ∧
    longest_contiguous ['a', '2'] "" "" true =
      .error (.valueError (contentMsg2 "" "")) ∧
    '1' ∉ (contentMsg2 "" "").toList ∧ '2' ∉ (contentMsg2 "" "").toList :=
  ⟨rfl, rfl, by decide, by decide⟩

/-- Claim C9 (amended): every failing `longest_contiguous` call raises either
the configuration error (exactly when a symbol is oversized) or the content
error, and the two carry different messages, so a caller can distinguish a
malformed configuration from malformed sequence content by the error raised.
The messages name the violated constraint and the configured symbols, not the
offending characters (per the counterexample). -/
theorem claim_c9_error_taxonomy (seq : List Char) (stop_codon gap : String)
    (case_sensitive : Bool) (e : PyError)
    (h : longest_contiguous seq stop_codon gap case_sensitive = .error e) :
    ((e = .valueError configMsg ∧ (1 < stop_codon.length ∨ 1 < gap.length)) ∨
     (e = .valueError (contentMsg2 stop_codon gap) ∧
       stop_codon.length ≤ 1 ∧ gap.length ≤ 1)) ∧
    PyError.valueError configMsg ≠ .valueError (contentMsg2 stop_codon gap) :=
  ⟨version2_error_inv h,
    fun he => configMsg_ne_contentMsg2 stop_codon gap (PyError.valueError.inj he)⟩

theorem claim_c9_witness :
    longest_contiguous ['a'] "ab" "" true = .error (.valueError configMsg) ∧
    ((((PyError.valueError configMsg : PyError) = .valueError configMsg ∧
        (1 < ("ab" : String).length ∨ 1 < ("" : String).length)) ∨
      ((PyError.valueError configMsg : PyError) = .valueError (contentMsg2 "ab" "") ∧
        ("ab" : String).length ≤ 1 ∧ ("" : String).length ≤ 1)) ∧
     PyError.valueError configMsg ≠ .valueError (contentMsg2 "ab" "")) :=
  ⟨rfl, claim_c9_error_taxonomy ['a'] "ab" "" true (.valueError configMsg) rfl⟩

/-- Claim C10 counterexample: the sequence "B" consists entirely of occurrences
of the configured stop-codon symbol "B", yet with case_sensitive=False the call
succeeds (lowercasing turns the sequence into "b", which the uppercase symbol
no longer strips), returning b: 1 instead of raising. -/
theorem claim_c10_counterexample :
    longest_contiguous ['B'] "B" "" false = .ok [('b', 1)] := rfl

/-- Claim C10 (amended): whenever stripping the configured (at most
single-character) stop-codon and gap symbols from the case-normalized
non-empty sequence leaves the empty string — in particular for any non-empty
all-symbol sequence such as "***" with stop codon "*" under case-sensitive
scanning — `longest_contiguous` raises the content error rather than returning
a mapping, because `isalpha` rejects the empty string. -/
theorem claim_c10_all_symbols_error (seq : List Char) (stop_codon gap : String)
    (case_sensitive : Bool) (hne : seq ≠ [])
    (hstop : stop_codon.length ≤ 1) (hgap : gap.length ≤ 1)
    (hdel : pyDel (pyDel (if case_sensitive then seq else seq.map Char.toLower)
      stop_codon) gap = []) :
    longest_contiguous seq stop_codon gap case_sensitive =
      .error (.valueError (contentMsg2 stop_codon gap)) :=
  version2_content_error hne hstop hgap (by rw [hdel]; rfl)

theorem claim_c10_witness :
    ((['*', '*', '*'] : List Char) ≠ [] ∧ ("*" : String).length ≤ 1 ∧
      pyDel (pyDel (if true then (['*', '*', '*'] : List Char) else
        (['*', '*', '*'] : List Char).map Char.toLower) "*") "" = []) ∧
    longest_contiguous ['*', '*', '*'] "*" "" true =
      .error (.valueError (contentMsg2 "*" "")) :=
  ⟨⟨by decide, by decide, by decide⟩,
    claim_c10_all_symbols_error ['*', '*', '*'] "*" "" true (by decide) (by decide)
      (by decide) (by decide)⟩

end LongestSub
